import Mathlib

/-!
# Verification of the mind-map tree layout engine

Shallow embedding of `src/components/MindMap.tsx` (the tree layout
computation inside `MindMapComponent`'s effect) together with the
`MindMapNode` input type from `src/types.ts`.

Conventions of the embedding:
* JavaScript numbers are modelled as `ℚ`; every quantity produced by the
  layout is a dyadic rational (integers combined by `+` and `/ 2`), so
  rational arithmetic coincides exactly with IEEE double arithmetic here.
* The optional `children?: MindMapNode[]` field is `Option (List MindMapNode)`;
  the source's truthiness test `!node.children || node.children.length === 0`
  is translated branch for branch.
* JavaScript object identity (the `Map` keyed by node object, and the
  reference comparison `n.node === childNode` in link creation) is modelled
  by the occurrence path of a node in the input tree: the input is a tree
  with no shared substructure, so an occurrence is uniquely named by the
  list of child indices leading to it from the root.  Each produced
  `LayoutNode` carries this `path`.  `nodeMap.get(node).subtreeHeight` is a
  pure function of the node occurrence and is modelled by re-running pass 1
  (`calculateInitialY`) on the subtree, which returns the exact value the
  map holds.
-/

/-- `const NODE_WIDTH = 180` (MindMap.tsx line 4). -/
def NODE_WIDTH : ℚ := 180

/-- `const NODE_HEIGHT = 80` (MindMap.tsx line 5). -/
def NODE_HEIGHT : ℚ := 80

/-- `const HORIZONTAL_SEPARATION = 220` (MindMap.tsx line 6). -/
def HORIZONTAL_SEPARATION : ℚ := 220

/-- `const VERTICAL_SEPARATION = 20` (MindMap.tsx line 7). -/
def VERTICAL_SEPARATION : ℚ := 20

/-- The input tree type, from `src/types.ts`:
`interface MindMapNode { title: string; children?: MindMapNode[]; }`. -/
inductive MindMapNode : Type where
  | mk (title : String) (children : Option (List MindMapNode)) : MindMapNode

/-- Field accessor for `title`. -/
def MindMapNode.title : MindMapNode → String
  | .mk t _ => t

/-- Field accessor for the optional `children` field. -/
def MindMapNode.children : MindMapNode → Option (List MindMapNode)
  | .mk _ c => c

mutual
/-- Pass 1 (MindMap.tsx lines 70-81): post-order computation of
`subtreeHeight`.  The branch `!node.children || node.children.length === 0`
yields `NODE_HEIGHT + VERTICAL_SEPARATION`; otherwise the heights of the
children are summed by the `forEach` loop. -/
def calculateInitialY (node : MindMapNode) : ℚ :=
  match node with
  | .mk _ none => NODE_HEIGHT + VERTICAL_SEPARATION
  | .mk _ (some cs) =>
    if cs.length = 0 then NODE_HEIGHT + VERTICAL_SEPARATION
    else sumInitialY cs
termination_by structural node

/-- The `forEach` accumulation `subtreeHeight += calculateInitialY(child)`
of pass 1, as a fold over the child list. -/
def sumInitialY (l : List MindMapNode) : ℚ :=
  match l with
  | [] => 0
  | c :: cs => calculateInitialY c + sumInitialY cs
termination_by structural l
end

/-- One entry of the `nodes` array (MindMap.tsx lines 19-24), extended with
`path`, the occurrence path that models the JS object identity of `node`. -/
structure LayoutNode where
  node : MindMapNode
  x : ℚ
  y : ℚ
  level : Nat
  path : List Nat

/-- A point `{x, y}` of a link endpoint (MindMap.tsx lines 26-29). -/
structure LinkPoint where
  x : ℚ
  y : ℚ
deriving DecidableEq

/-- One entry of the `links` array (MindMap.tsx lines 26-29). -/
structure LayoutLink where
  source : LinkPoint
  target : LinkPoint
deriving DecidableEq

mutual
/-- Pass 2 (MindMap.tsx lines 86-107): pre-order coordinate assignment.
Returns the list of `nodes.push` entries produced by this call (in push
order: all descendants first, the node itself last) together with the
returned `y`.  `level`, `yOffset` are the source parameters; `path` is the
occurrence path of `node` (models object identity, see module docstring). -/
def calculateFinalLayout (node : MindMapNode) (level : Nat) (yOffset : ℚ)
    (path : List Nat) : List LayoutNode × ℚ :=
  match node with
  | .mk t none =>
    let y := yOffset + calculateInitialY (.mk t none) / 2
    ([{ node := .mk t none, x := (level : ℚ) * HORIZONTAL_SEPARATION,
        y := y, level := level, path := path }], y)
  | .mk t (some cs) =>
    if cs.length = 0 then
      let y := yOffset + calculateInitialY (.mk t (some cs)) / 2
      ([{ node := .mk t (some cs), x := (level : ℚ) * HORIZONTAL_SEPARATION,
          y := y, level := level, path := path }], y)
    else
      let r := layoutChildren cs (level + 1) yOffset path 0
      let y := (r.2.headD 0 + r.2.getLastD 0) / 2
      (r.1 ++ [{ node := .mk t (some cs),
                 x := (level : ℚ) * HORIZONTAL_SEPARATION,
                 y := y, level := level, path := path }], y)
termination_by structural node

/-- The `forEach` loop of pass 2 (MindMap.tsx lines 96-100): lays out the
children `l` in order starting at vertical offset `yOffset`, advancing the
offset by each child's `subtreeHeight`; returns all pushed entries and the
`childCenters` array.  `i` is the child index used to form occurrence
paths. -/
def layoutChildren (l : List MindMapNode) (level : Nat) (yOffset : ℚ)
    (path : List Nat) (i : Nat) : List LayoutNode × List ℚ :=
  match l with
  | [] => ([], [])
  | c :: cs =>
    let rc := calculateFinalLayout c level yOffset (path ++ [i])
    let rest := layoutChildren cs level (yOffset + calculateInitialY c) path (i + 1)
    (rc.1 ++ rest.1, rc.2 :: rest.2)
termination_by structural l
end

/-- The body of the outer `forEach` of step 3 (MindMap.tsx lines 113-125)
for one source entry `s`: if `s.node.children` is truthy (present, possibly
empty), then for every child index, find the child's entry by object
identity (modelled by the path `s.path ++ [j]`) and, if found, push a link
from the parent's right edge midpoint to the child's left edge midpoint. -/
def linkRow (nodes : List LayoutNode) (s : LayoutNode) : List LayoutLink :=
  match s.node.children with
  | none => []
  | some cs =>
    (List.range cs.length).filterMap (fun j =>
      match nodes.find? (fun n => n.path = s.path ++ [j]) with
      | some t => some { source := { x := s.x + NODE_WIDTH, y := s.y },
                         target := { x := t.x, y := t.y } }
      | none => none)

/-- Step 3 (MindMap.tsx lines 112-125): link creation, one row of links
per source entry, in entry order. -/
def createLinks (nodes : List LayoutNode) : List LayoutLink :=
  nodes.flatMap (linkRow nodes)

/-- `Math.max(...list)` for the nonempty list of node x-coordinates
(MindMap.tsx line 128). -/
def mathMax : List ℚ → ℚ
  | [] => 0
  | x :: xs => xs.foldl max x

/-- The layout state set by `setLayout` (MindMap.tsx lines 56 and 132). -/
structure LayoutResult where
  nodes : List LayoutNode
  links : List LayoutLink
  width : ℚ
  height : ℚ

/-- The whole effect body (MindMap.tsx lines 65-132) as a pure function of
the input tree: pass 1, pass 2, link creation, canvas sizing. -/
def computeLayout (data : MindMapNode) : LayoutResult :=
  let totalHeight := calculateInitialY data
  let nodes := (calculateFinalLayout data 0 0 []).1
  let links := createLinks nodes
  let maxX := mathMax (nodes.map (·.x)) + NODE_WIDTH
  { nodes := nodes, links := links, width := maxX + 40, height := totalHeight + 40 }

/-- The effect body as invoked on a possibly-null `data` prop.  When `data`
is `null`/`undefined`, the very first statement executed,
`calculateInitialY(data)`, evaluates `node.children` on a null reference
and throws a `TypeError` (JS semantics); no computation happens and
`setLayout` is never reached, so no (partial) layout is produced. -/
def computeLayoutFromNullable : Option MindMapNode → Except String LayoutResult
  | none => .error "TypeError: Cannot read properties of null (reading 'children')"
  | some data => .ok (computeLayout data)

/-! ## Specification-side definitions (traversals and counts of the input tree) -/

mutual
/-- Pre-order traversal of the input tree: root first, then the children's
subtrees in their given order. -/
def preorder : MindMapNode → List MindMapNode
  | .mk t none => [.mk t none]
  | .mk t (some cs) => .mk t (some cs) :: preorderList cs
termination_by structural n => n

/-- Pre-order traversal of a forest. -/
def preorderList : List MindMapNode → List MindMapNode
  | [] => []
  | c :: cs => preorder c ++ preorderList cs
termination_by structural l => l
end

mutual
/-- Post-order traversal of the input tree: each child's subtree in the
children's given order, then the root last. -/
def postorder : MindMapNode → List MindMapNode
  | .mk t none => [.mk t none]
  | .mk t (some cs) => postorderList cs ++ [.mk t (some cs)]
termination_by structural n => n

/-- Post-order traversal of a forest. -/
def postorderList : List MindMapNode → List MindMapNode
  | [] => []
  | c :: cs => postorder c ++ postorderList cs
termination_by structural l => l
end

mutual
/-- Number of nodes of the input tree. -/
def countNodes : MindMapNode → Nat
  | .mk _ none => 1
  | .mk _ (some cs) => 1 + countNodesList cs
termination_by structural n => n

/-- Number of nodes of a forest. -/
def countNodesList : List MindMapNode → Nat
  | [] => 0
  | c :: cs => countNodes c + countNodesList cs
termination_by structural l => l
end

mutual
/-- Number of leaves of the input tree, a node with an absent or empty
child list counting as a leaf (mirroring the pass-1 branch condition). -/
def leafCount : MindMapNode → Nat
  | .mk _ none => 1
  | .mk _ (some cs) => if cs.length = 0 then 1 else leafCountList cs
termination_by structural n => n

/-- Number of leaves of a forest. -/
def leafCountList : List MindMapNode → Nat
  | [] => 0
  | c :: cs => leafCount c + leafCountList cs
termination_by structural l => l
end

/-- Number of children of a node (`0` when the field is absent). -/
def childCount (n : MindMapNode) : Nat :=
  match n.children with
  | none => 0
  | some cs => cs.length

/-- The vertical offset handed to the `j`-th child during pass 2 when the
children `cs` are laid out starting at offset `yOffset`: the start of the
`j`-th contiguous vertical band. -/
def bandStart (cs : List MindMapNode) (yOffset : ℚ) (j : Nat) : ℚ :=
  yOffset + sumInitialY (cs.take j)

/-- Closed-box intersection test for the `NODE_WIDTH × NODE_HEIGHT` boxes
that the renderer draws at `(x, y - NODE_HEIGHT/2)` (MindMap.tsx line 248):
the two rectangles share a point iff their x-ranges and y-ranges both
overlap. -/
def boxesOverlap (a b : LayoutNode) : Prop :=
  a.x ≤ b.x + NODE_WIDTH ∧ b.x ≤ a.x + NODE_WIDTH ∧
  a.y - NODE_HEIGHT / 2 ≤ b.y + NODE_HEIGHT / 2 ∧
  b.y - NODE_HEIGHT / 2 ≤ a.y + NODE_HEIGHT / 2

/-! ## Basic algebra of pass 1 -/

theorem sumInitialY_nil : sumInitialY [] = 0 := by simp [sumInitialY]

theorem sumInitialY_cons (c : MindMapNode) (cs : List MindMapNode) :
    sumInitialY (c :: cs) = calculateInitialY c + sumInitialY cs := by
  simp [sumInitialY]

theorem sumInitialY_append (a b : List MindMapNode) :
    sumInitialY (a ++ b) = sumInitialY a + sumInitialY b := by
  induction a with
  | nil => simp [sumInitialY]
  | cons c cs ih => simp [sumInitialY_cons, ih]; ring

theorem calculateInitialY_none (t : String) :
    calculateInitialY (.mk t none) = NODE_HEIGHT + VERTICAL_SEPARATION := by
  simp [calculateInitialY]

theorem calculateInitialY_empty (t : String) :
    calculateInitialY (.mk t (some [])) = NODE_HEIGHT + VERTICAL_SEPARATION := by
  simp [calculateInitialY]

theorem calculateInitialY_internal (t : String) (cs : List MindMapNode)
    (h : cs ≠ []) : calculateInitialY (.mk t (some cs)) = sumInitialY cs := by
  simp [calculateInitialY, List.length_eq_zero, h]

mutual
theorem calculateInitialY_eq_leafCount (n : MindMapNode) :
    calculateInitialY n = (leafCount n : ℚ) * (NODE_HEIGHT + VERTICAL_SEPARATION) := by
  match n with
  | .mk t none => simp [calculateInitialY, leafCount]
  | .mk t (some cs) =>
    by_cases h : cs.length = 0
    · simp [calculateInitialY, leafCount, h]
    · rw [calculateInitialY_internal t cs (by simpa using h),
        sumInitialY_eq_leafCountList cs]
      simp [leafCount, h]
termination_by structural n

theorem sumInitialY_eq_leafCountList (l : List MindMapNode) :
    sumInitialY l = (leafCountList l : ℚ) * (NODE_HEIGHT + VERTICAL_SEPARATION) := by
  match l with
  | [] => simp [sumInitialY, leafCountList]
  | c :: cs =>
    rw [sumInitialY_cons, calculateInitialY_eq_leafCount c,
      sumInitialY_eq_leafCountList cs]
    simp [leafCountList]
    ring
termination_by structural l
end

mutual
theorem one_le_leafCount (n : MindMapNode) : 1 ≤ leafCount n := by
  match n with
  | .mk t none => simp [leafCount]
  | .mk t (some cs) =>
    by_cases h : cs.length = 0
    · simp [leafCount, h]
    · have : 1 ≤ leafCountList cs :=
        one_le_leafCountList cs (by simpa using h)
      simpa [leafCount, h] using this
termination_by structural n

theorem one_le_leafCountList (l : List MindMapNode) (h : l ≠ []) :
    1 ≤ leafCountList l := by
  match l with
  | [] => exact absurd rfl h
  | c :: cs =>
    have := one_le_leafCount c
    simp [leafCountList]
    omega
termination_by structural l
end

theorem hundred_le_calculateInitialY (n : MindMapNode) :
    100 ≤ calculateInitialY n := by
  rw [calculateInitialY_eq_leafCount]
  have h := one_le_leafCount n
  have h1 : (1 : ℚ) ≤ (leafCount n : ℚ) := by exact_mod_cast h
  have : NODE_HEIGHT + VERTICAL_SEPARATION = 100 := by
    simp [NODE_HEIGHT, VERTICAL_SEPARATION]; norm_num
  rw [this]
  nlinarith

theorem sumInitialY_nonneg (l : List MindMapNode) : 0 ≤ sumInitialY l := by
  rw [sumInitialY_eq_leafCountList]
  have : (0 : ℚ) ≤ (leafCountList l : ℚ) := by positivity
  have h2 : (0 : ℚ) ≤ NODE_HEIGHT + VERTICAL_SEPARATION := by
    simp [NODE_HEIGHT, VERTICAL_SEPARATION]; norm_num
  positivity

/-! ## Node list structure: post-order traversal -/

mutual
theorem map_node_calculateFinalLayout (n : MindMapNode) (lv : Nat) (yOff : ℚ)
    (p : List Nat) :
    ((calculateFinalLayout n lv yOff p).1).map LayoutNode.node = postorder n := by
  match n with
  | .mk t none => simp [calculateFinalLayout, postorder]
  | .mk t (some cs) =>
    by_cases h : cs.length = 0
    · simp [calculateFinalLayout, postorder, h, List.length_eq_zero.mp h, postorderList]
    · rw [postorder]
      simp only [calculateFinalLayout, h, if_false]
      rw [List.map_append]
      rw [map_node_layoutChildren cs (lv + 1) yOff p 0]
      simp
termination_by structural n

theorem map_node_layoutChildren (l : List MindMapNode) (lv : Nat) (yOff : ℚ)
    (p : List Nat) (i : Nat) :
    ((layoutChildren l lv yOff p i).1).map LayoutNode.node = postorderList l := by
  match l with
  | [] => simp [layoutChildren, postorderList]
  | c :: cs =>
    simp only [layoutChildren, postorderList, List.map_append]
    rw [map_node_calculateFinalLayout c lv yOff (p ++ [i]),
      map_node_layoutChildren cs lv (yOff + calculateInitialY c) p (i + 1)]
termination_by structural l
end

mutual
theorem length_postorder (n : MindMapNode) : (postorder n).length = countNodes n := by
  match n with
  | .mk t none => simp [postorder, countNodes]
  | .mk t (some cs) =>
    simp [postorder, countNodes, length_postorderList cs]
    omega
termination_by structural n

theorem length_postorderList (l : List MindMapNode) :
    (postorderList l).length = countNodesList l := by
  match l with
  | [] => simp [postorderList, countNodesList]
  | c :: cs =>
    simp [postorderList, countNodesList, length_postorder c,
      length_postorderList cs]
termination_by structural l
end

theorem length_nodes_eq_countNodes (data : MindMapNode) :
    (computeLayout data).nodes.length = countNodes data := by
  have h := map_node_calculateFinalLayout data 0 0 []
  have := congrArg List.length h
  simpa [computeLayout, length_postorder] using this

/-! ## Bands and the shape of pass 2 -/

/-- Default node for `List.getD` (never actually reached in the lemmas
below, which only index within bounds). -/
def dnode : MindMapNode := .mk "" none

theorem bandStart_zero (cs : List MindMapNode) (yOff : ℚ) :
    bandStart cs yOff 0 = yOff := by
  simp [bandStart, sumInitialY_nil]

theorem bandStart_succ (cs : List MindMapNode) (yOff : ℚ) {j : Nat}
    (h : j < cs.length) :
    bandStart cs yOff (j + 1) = bandStart cs yOff j + calculateInitialY (cs.getD j dnode) := by
  unfold bandStart
  rw [List.take_succ, sumInitialY_append]
  have h1 : cs[j]? = some cs[j] := List.getElem?_eq_getElem h
  have h2 : cs.getD j dnode = cs[j] := by
    simp [List.getD, h1]
  rw [h1, h2]
  simp [sumInitialY_cons, sumInitialY_nil]
  ring

theorem bandStart_cons_succ (c : MindMapNode) (cs : List MindMapNode)
    (yOff : ℚ) (j : Nat) :
    bandStart (c :: cs) yOff (j + 1) = bandStart cs (yOff + calculateInitialY c) j := by
  simp [bandStart, List.take_succ_cons, sumInitialY_cons]
  ring

theorem bandStart_le_succ (cs : List MindMapNode) (yOff : ℚ) (k : Nat) :
    bandStart cs yOff k ≤ bandStart cs yOff (k + 1) := by
  by_cases h : k < cs.length
  · rw [bandStart_succ cs yOff h]
    have := hundred_le_calculateInitialY (cs.getD k dnode)
    linarith
  · unfold bandStart
    rw [List.take_of_length_le (by omega), List.take_of_length_le (by omega)]

theorem bandStart_mono (cs : List MindMapNode) (yOff : ℚ) {j k : Nat}
    (h : j ≤ k) : bandStart cs yOff j ≤ bandStart cs yOff k := by
  induction k with
  | zero => simp_all
  | succ m ih =>
    rcases Nat.lt_or_ge j (m + 1) with hlt | hge
    · exact le_trans (ih (by omega)) (bandStart_le_succ cs yOff m)
    · have : j = m + 1 := by omega
      subst this
      exact le_refl _

theorem bandStart_add_le (cs : List MindMapNode) (yOff : ℚ) {j : Nat}
    (h : j < cs.length) :
    bandStart cs yOff j + calculateInitialY (cs.getD j dnode) ≤ yOff + sumInitialY cs := by
  rw [← bandStart_succ cs yOff h]
  have h2 := bandStart_mono cs yOff (Nat.succ_le_of_lt (Nat.lt_succ_of_lt h))
  calc bandStart cs yOff (j + 1) ≤ bandStart cs yOff cs.length := by
        exact bandStart_mono cs yOff (by omega)
    _ = yOff + sumInitialY cs := by
        unfold bandStart
        rw [List.take_of_length_le (le_refl _)]

/-- The `childCenters` array produced by the pass-2 loop, characterized per
child index: the `j`-th center is the `y` returned for the `j`-th child,
laid out at the start of its band. -/
theorem centers_layoutChildren (l : List MindMapNode) (lv : Nat) (p : List Nat) :
    ∀ (yOff : ℚ) (i : Nat), (layoutChildren l lv yOff p i).2 =
      (List.range l.length).map (fun j =>
        (calculateFinalLayout (l.getD j dnode) lv (bandStart l yOff j) (p ++ [i + j])).2) := by
  induction l with
  | nil => intro yOff i; simp [layoutChildren]
  | cons c cs ih =>
    intro yOff i
    simp only [layoutChildren]
    rw [ih (yOff + calculateInitialY c) (i + 1)]
    rw [List.length_cons, List.range_succ_eq_map, List.map_cons, List.map_map]
    congr 1
    · rw [bandStart_zero]
      simp [List.getD]
    · refine List.map_congr_left (fun j hj => ?_)
      simp only [Function.comp_apply]
      have h1 : (c :: cs).getD (j + 1) dnode = cs.getD j dnode := by
        simp [List.getD]
      rw [show Nat.succ j = j + 1 from rfl, h1, bandStart_cons_succ]
      have h2 : i + (j + 1) = i + 1 + j := by omega
      rw [h2]

/-- The entries produced by the pass-2 loop, characterized per child index:
the loop lays child `j` out at the start of the `j`-th band. -/
theorem entries_layoutChildren (l : List MindMapNode) (lv : Nat) (p : List Nat) :
    ∀ (yOff : ℚ) (i : Nat), (layoutChildren l lv yOff p i).1 =
      (List.range l.length).flatMap (fun j =>
        (calculateFinalLayout (l.getD j dnode) lv (bandStart l yOff j) (p ++ [i + j])).1) := by
  induction l with
  | nil => intro yOff i; simp [layoutChildren]
  | cons c cs ih =>
    intro yOff i
    simp only [layoutChildren]
    rw [ih (yOff + calculateInitialY c) (i + 1)]
    rw [List.length_cons, List.range_succ_eq_map, List.flatMap_cons, List.flatMap_map]
    congr 1
    · rw [bandStart_zero]
      simp [List.getD]
    · refine List.flatMap_congr (fun j hj => ?_)
      have h1 : (c :: cs).getD (j + 1) dnode = cs.getD j dnode := by
        simp [List.getD]
      rw [show Nat.succ j = j + 1 from rfl, h1, bandStart_cons_succ]
      have h2 : i + (j + 1) = i + 1 + j := by omega
      rw [h2]

/-- Every pass-2 call pushes its own node last: the entry list decomposes as
the descendants' entries followed by the node's own entry, whose `y` is the
call's return value. -/
theorem calculateFinalLayout_concat (n : MindMapNode) (lv : Nat) (yOff : ℚ)
    (p : List Nat) :
    ∃ es, (calculateFinalLayout n lv yOff p).1 = es ++
      [{ node := n, x := (lv : ℚ) * HORIZONTAL_SEPARATION,
         y := (calculateFinalLayout n lv yOff p).2, level := lv, path := p }] := by
  match n with
  | .mk t none => exact ⟨[], by simp [calculateFinalLayout]⟩
  | .mk t (some cs) =>
    by_cases h : cs.length = 0
    · exact ⟨[], by simp [calculateFinalLayout, h]⟩
    · refine ⟨(layoutChildren cs (lv + 1) yOff p 0).1, ?_⟩
      simp [calculateFinalLayout, h]

/-- The node's own entry is a member of its entry list. -/
theorem root_mem_calculateFinalLayout (n : MindMapNode) (lv : Nat) (yOff : ℚ)
    (p : List Nat) :
    { node := n, x := (lv : ℚ) * HORIZONTAL_SEPARATION,
      y := (calculateFinalLayout n lv yOff p).2, level := lv,
      path := p : LayoutNode } ∈ (calculateFinalLayout n lv yOff p).1 := by
  obtain ⟨es, hes⟩ := calculateFinalLayout_concat n lv yOff p
  rw [hes]
  simp

/-- The number of child centers collected by the pass-2 loop equals the
number of children. -/
theorem length_centers_layoutChildren (l : List MindMapNode) (lv : Nat)
    (yOff : ℚ) (p : List Nat) (i : Nat) :
    (layoutChildren l lv yOff p i).2.length = l.length := by
  rw [centers_layoutChildren]
  simp

theorem headD_mem {l : List ℚ} (h : l ≠ []) : l.headD 0 ∈ l := by
  cases l with
  | nil => exact absurd rfl h
  | cons a as => simp

theorem getLastD_mem_gen : ∀ (l : List ℚ) (d : ℚ), l ≠ [] → l.getLastD d ∈ l := by
  intro l
  induction l with
  | nil => intro d h; exact absurd rfl h
  | cons a as ih =>
    intro d _
    cases as with
    | nil => simp [List.getLastD]
    | cons b bs =>
      rw [List.getLastD_cons]
      exact List.mem_cons_of_mem a (ih a (by simp))

theorem getLastD_mem {l : List ℚ} (h : l ≠ []) : l.getLastD 0 ∈ l :=
  getLastD_mem_gen l 0 h

/-! ## Vertical band bounds -/

mutual
/-- The `y` returned by pass 2 lies in the middle of the node's band,
at least 50 units (half a slot) from either edge. -/
theorem ybound_calculateFinalLayout (n : MindMapNode) (lv : Nat) (yOff : ℚ)
    (p : List Nat) :
    yOff + 50 ≤ (calculateFinalLayout n lv yOff p).2 ∧
    (calculateFinalLayout n lv yOff p).2 ≤ yOff + calculateInitialY n - 50 := by
  match n with
  | .mk t none =>
    rw [calculateInitialY_none]
    have hval : (calculateFinalLayout (.mk t none) lv yOff p).2 =
        yOff + (NODE_HEIGHT + VERTICAL_SEPARATION) / 2 := by
      simp [calculateFinalLayout, calculateInitialY]
    rw [hval]
    unfold NODE_HEIGHT VERTICAL_SEPARATION
    constructor <;> linarith
  | .mk t (some cs) =>
    by_cases h : cs.length = 0
    · rw [List.length_eq_zero.mp h]
      rw [calculateInitialY_empty]
      have hval : (calculateFinalLayout (.mk t (some [])) lv yOff p).2 =
          yOff + (NODE_HEIGHT + VERTICAL_SEPARATION) / 2 := by
        simp [calculateFinalLayout, calculateInitialY]
      rw [hval]
      unfold NODE_HEIGHT VERTICAL_SEPARATION
      constructor <;> linarith
    · have hcs : cs ≠ [] := by
        intro hnil; exact h (by simp [hnil])
      have hcent := centersBound_layoutChildren cs (lv + 1) yOff p 0
      have hlen := length_centers_layoutChildren cs (lv + 1) yOff p 0
      have hne : (layoutChildren cs (lv + 1) yOff p 0).2 ≠ [] := by
        intro hnil
        rw [hnil] at hlen
        exact hcs (List.length_eq_zero.mp hlen.symm)
      have h1 := hcent _ (headD_mem hne)
      have h2 := hcent _ (getLastD_mem hne)
      rw [calculateInitialY_internal t cs hcs]
      have hval : (calculateFinalLayout (.mk t (some cs)) lv yOff p).2 =
          ((layoutChildren cs (lv + 1) yOff p 0).2.headD 0 +
           (layoutChildren cs (lv + 1) yOff p 0).2.getLastD 0) / 2 := by
        simp only [calculateFinalLayout, h, if_false]
      rw [hval]
      constructor <;> linarith [h1.1, h1.2, h2.1, h2.2]
termination_by structural n

/-- Every child center collected by the pass-2 loop lies within the block
of bands of the laid-out children, 50 units from either edge. -/
theorem centersBound_layoutChildren (l : List MindMapNode) (lv : Nat)
    (yOff : ℚ) (p : List Nat) (i : Nat) :
    ∀ c ∈ (layoutChildren l lv yOff p i).2,
      yOff + 50 ≤ c ∧ c ≤ yOff + sumInitialY l - 50 := by
  match l with
  | [] => intro c hc; simp [layoutChildren] at hc
  | c0 :: cs =>
    intro c hc
    simp only [layoutChildren, List.mem_cons] at hc
    have hh := hundred_le_calculateInitialY c0
    have hs := sumInitialY_nonneg cs
    rw [sumInitialY_cons]
    rcases hc with rfl | hmem
    · have hb := ybound_calculateFinalLayout c0 lv yOff (p ++ [i])
      exact ⟨hb.1, by linarith [hb.2]⟩
    · have hb := centersBound_layoutChildren cs lv (yOff + calculateInitialY c0) p (i + 1) c hmem
      exact ⟨by linarith [hb.1], by linarith [hb.2]⟩
termination_by structural l
end

/-! ## Per-entry invariants of pass 2 -/

mutual
/-- Every entry pushed by a pass-2 call on occurrence `p` at depth `lv`:
its path extends `p`, its level is `lv` plus its depth below `p`, its `x`
is its level times the horizontal separation, and its `y` stays at least
50 units inside the call's vertical band. -/
theorem entryShape_calculateFinalLayout (n : MindMapNode) (lv : Nat)
    (yOff : ℚ) (p : List Nat) :
    ∀ e ∈ (calculateFinalLayout n lv yOff p).1,
      (∃ q, e.path = p ++ q) ∧
      e.level + p.length = e.path.length + lv ∧
      lv ≤ e.level ∧
      e.x = (e.level : ℚ) * HORIZONTAL_SEPARATION ∧
      yOff + 50 ≤ e.y ∧ e.y ≤ yOff + calculateInitialY n - 50 := by
  match n with
  | .mk t none =>
    intro e he
    simp only [calculateFinalLayout, List.mem_singleton] at he
    subst he
    refine ⟨⟨[], by simp⟩, by exact Nat.add_comm lv p.length, le_refl _, rfl, ?_, ?_⟩ <;>
      · simp only [calculateInitialY_none]
        unfold NODE_HEIGHT VERTICAL_SEPARATION
        linarith
  | .mk t (some cs) =>
    by_cases h : cs.length = 0
    · intro e he
      simp only [calculateFinalLayout, h, if_true, List.mem_singleton] at he
      subst he
      refine ⟨⟨[], by simp⟩, by exact Nat.add_comm lv p.length, le_refl _, rfl, ?_, ?_⟩ <;>
        · simp only [calculateInitialY, h, if_true]
          unfold NODE_HEIGHT VERTICAL_SEPARATION
          linarith
    · intro e he
      have hcs : cs ≠ [] := fun hnil => h (by simp [hnil])
      rw [calculateInitialY_internal t cs hcs]
      have hsplit : (calculateFinalLayout (.mk t (some cs)) lv yOff p).1 =
          (layoutChildren cs (lv + 1) yOff p 0).1 ++
          [{ node := .mk t (some cs), x := (lv : ℚ) * HORIZONTAL_SEPARATION,
             y := ((layoutChildren cs (lv + 1) yOff p 0).2.headD 0 +
                   (layoutChildren cs (lv + 1) yOff p 0).2.getLastD 0) / 2,
             level := lv, path := p }] := by
        simp only [calculateFinalLayout, h, if_false]
      rw [hsplit] at he
      rcases List.mem_append.mp he with hmem | hroot
      · obtain ⟨⟨i2, q, _, hpath⟩, hlvl, hle, hx, hy1, hy2⟩ :=
          entryShape_layoutChildren cs (lv + 1) yOff p 0 e hmem
        exact ⟨⟨i2 :: q, hpath⟩, by omega, by omega, hx, hy1, hy2⟩
      · have he2 := List.mem_singleton.mp hroot
        subst he2
        have hb := ybound_calculateFinalLayout (.mk t (some cs)) lv yOff p
        have hval : (calculateFinalLayout (.mk t (some cs)) lv yOff p).2 =
            ((layoutChildren cs (lv + 1) yOff p 0).2.headD 0 +
             (layoutChildren cs (lv + 1) yOff p 0).2.getLastD 0) / 2 := by
          simp only [calculateFinalLayout, h, if_false]
        rw [hval, calculateInitialY_internal t cs hcs] at hb
        exact ⟨⟨[], by simp⟩, by exact Nat.add_comm lv p.length, le_refl _, rfl, hb.1, hb.2⟩
termination_by structural n

/-- Every entry pushed by the pass-2 loop starting at child index `i`:
its path extends `p` by some child index at least `i`, and its `y` stays
inside the block of the children's bands. -/
theorem entryShape_layoutChildren (l : List MindMapNode) (lv : Nat)
    (yOff : ℚ) (p : List Nat) (i : Nat) :
    ∀ e ∈ (layoutChildren l lv yOff p i).1,
      (∃ i2 q, i ≤ i2 ∧ e.path = p ++ i2 :: q) ∧
      e.level + p.length + 1 = e.path.length + lv ∧
      lv ≤ e.level ∧
      e.x = (e.level : ℚ) * HORIZONTAL_SEPARATION ∧
      yOff + 50 ≤ e.y ∧ e.y ≤ yOff + sumInitialY l - 50 := by
  match l with
  | [] => intro e he; simp [layoutChildren] at he
  | c :: cs =>
    intro e he
    simp only [layoutChildren] at he
    have hh := hundred_le_calculateInitialY c
    have hs := sumInitialY_nonneg cs
    rw [sumInitialY_cons]
    rcases List.mem_append.mp he with hmem | hmem
    · obtain ⟨⟨q, hpath⟩, hlvl, hle, hx, hy1, hy2⟩ :=
        entryShape_calculateFinalLayout c lv yOff (p ++ [i]) e hmem
      refine ⟨⟨i, q, le_refl i, by simpa using hpath⟩, ?_, hle, hx, hy1, by linarith⟩
      · simp only [List.length_append, List.length_singleton] at hlvl
        omega
    · obtain ⟨⟨i2, q, hi2, hpath⟩, hlvl, hle, hx, hy1, hy2⟩ :=
        entryShape_layoutChildren cs lv (yOff + calculateInitialY c) p (i + 1) e hmem
      exact ⟨⟨i2, q, by omega, hpath⟩, hlvl, hle, hx, by linarith, by linarith⟩
termination_by structural l
end

/-! ## Pairwise separation of entries -/

/-- Two layout entries are "separated": they denote different occurrences
(different paths) and are either on different levels or at least one full
vertical slot (100 units) apart. -/
def sep (a b : LayoutNode) : Prop :=
  a.path ≠ b.path ∧ (a.level ≠ b.level ∨ 100 ≤ |b.y - a.y|)

mutual
theorem sep_calculateFinalLayout (n : MindMapNode) (lv : Nat) (yOff : ℚ)
    (p : List Nat) : ((calculateFinalLayout n lv yOff p).1).Pairwise sep := by
  match n with
  | .mk t none =>
    simp only [calculateFinalLayout]
    exact List.pairwise_singleton _ _
  | .mk t (some cs) =>
    by_cases h : cs.length = 0
    · simp only [calculateFinalLayout, h, if_true]
      exact List.pairwise_singleton _ _
    · have hsplit : (calculateFinalLayout (.mk t (some cs)) lv yOff p).1 =
          (layoutChildren cs (lv + 1) yOff p 0).1 ++
          [{ node := .mk t (some cs), x := (lv : ℚ) * HORIZONTAL_SEPARATION,
             y := ((layoutChildren cs (lv + 1) yOff p 0).2.headD 0 +
                   (layoutChildren cs (lv + 1) yOff p 0).2.getLastD 0) / 2,
             level := lv, path := p }] := by
        simp only [calculateFinalLayout, h, if_false]
      rw [hsplit]
      refine List.pairwise_append.mpr
        ⟨sep_layoutChildren cs (lv + 1) yOff p 0, List.pairwise_singleton _ _, ?_⟩
      intro a ha b hb
      have hb2 := List.mem_singleton.mp hb
      obtain ⟨⟨i2, q, _, hpath⟩, hlvl, hle, _, _, _⟩ :=
        entryShape_layoutChildren cs (lv + 1) yOff p 0 a ha
      constructor
      · rw [hb2, hpath]
        intro hcontra
        have := congrArg List.length hcontra
        simp at this
      · left
        rw [hb2]
        simp only []
        omega
termination_by structural n

theorem sep_layoutChildren (l : List MindMapNode) (lv : Nat) (yOff : ℚ)
    (p : List Nat) (i : Nat) :
    ((layoutChildren l lv yOff p i).1).Pairwise sep := by
  match l with
  | [] => simp [layoutChildren]
  | c :: cs =>
    simp only [layoutChildren]
    refine List.pairwise_append.mpr
      ⟨sep_calculateFinalLayout c lv yOff (p ++ [i]),
       sep_layoutChildren cs lv (yOff + calculateInitialY c) p (i + 1), ?_⟩
    intro a ha b hb
    obtain ⟨⟨qa, hpa⟩, _, _, _, _, hya⟩ :=
      entryShape_calculateFinalLayout c lv yOff (p ++ [i]) a ha
    obtain ⟨⟨i2, qb, hi2, hpb⟩, _, _, _, hyb, _⟩ :=
      entryShape_layoutChildren cs lv (yOff + calculateInitialY c) p (i + 1) b hb
    constructor
    · rw [hpa, hpb, List.append_assoc]
      intro hcontra
      have h2 := List.append_cancel_left hcontra
      simp at h2
      omega
    · right
      have : 100 ≤ b.y - a.y := by linarith
      calc (100 : ℚ) ≤ b.y - a.y := this
        _ ≤ |b.y - a.y| := le_abs_self _
termination_by structural l
end

/-! ## Path uniqueness and lookup resolution -/

theorem pairwise_path_ne (n : MindMapNode) (lv : Nat) (yOff : ℚ) (p : List Nat) :
    ((calculateFinalLayout n lv yOff p).1).Pairwise (fun a b => a.path ≠ b.path) :=
  (sep_calculateFinalLayout n lv yOff p).imp (fun h => h.1)

/-- Two entries of one layout with the same occurrence path are equal. -/
theorem path_inj (n : MindMapNode) (lv : Nat) (yOff : ℚ) (p : List Nat)
    {a b : LayoutNode} (ha : a ∈ (calculateFinalLayout n lv yOff p).1)
    (hb : b ∈ (calculateFinalLayout n lv yOff p).1) (hp : a.path = b.path) :
    a = b := by
  by_contra hne
  have hR : Symmetric (fun (a b : LayoutNode) => a.path ≠ b.path) := by
    intro x y hxy heq
    exact hxy heq.symm
  exact (pairwise_path_ne n lv yOff p).forall hR ha hb hne hp

/-- If some entry of the layout has path `P`, then `find?` over the entry
list resolves `P` to exactly that entry. -/
theorem find?_path_eq (n : MindMapNode) (lv : Nat) (yOff : ℚ) (p : List Nat)
    {e : LayoutNode} (he : e ∈ (calculateFinalLayout n lv yOff p).1) {P : List Nat}
    (hP : e.path = P) :
    (calculateFinalLayout n lv yOff p).1.find? (fun m => m.path = P) = some e := by
  have hsome : ((calculateFinalLayout n lv yOff p).1.find?
      (fun m => m.path = P)).isSome := by
    rw [List.find?_isSome]
    exact ⟨e, he, by simp [hP]⟩
  obtain ⟨a, ha⟩ := Option.isSome_iff_exists.mp hsome
  have hamem := List.mem_of_find?_eq_some ha
  have hap : a.path = P := by simpa using List.find?_some ha
  rw [ha]
  congr 1
  exact path_inj n lv yOff p hamem he (by rw [hap, hP])


/-! ## Child root entries and completeness of the entry list -/

theorem headD_map_range (f : Nat → ℚ) (m : Nat) :
    ((List.range (m + 1)).map f).headD 0 = f 0 := by
  rw [List.range_succ_eq_map]
  simp

theorem getLastD_map_range (f : Nat → ℚ) (m : Nat) :
    ((List.range (m + 1)).map f).getLastD 0 = f m := by
  rw [List.range_succ, List.map_append]
  simp [List.getLastD_eq_getLast?, List.getLast?_concat]

/-- The pass-2 loop's entry list contains, for each child index `j`, the
child's own root entry, with its path, node, level and returned `y`. -/
theorem childRoot_mem_layoutChildren (l : List MindMapNode) (lv : Nat)
    (yOff : ℚ) (p : List Nat) (i : Nat) {j : Nat} (hj : j < l.length) :
    { node := l.getD j dnode, x := (lv : ℚ) * HORIZONTAL_SEPARATION,
      y := (calculateFinalLayout (l.getD j dnode) lv (bandStart l yOff j) (p ++ [i + j])).2,
      level := lv, path := p ++ [i + j] : LayoutNode } ∈ (layoutChildren l lv yOff p i).1 := by
  rw [entries_layoutChildren]
  refine List.mem_flatMap.mpr ⟨j, by simp [hj], ?_⟩
  exact root_mem_calculateFinalLayout (l.getD j dnode) lv (bandStart l yOff j) (p ++ [i + j])

mutual
/-- Completeness: for every entry whose node has a child list, the entry
list of the enclosing pass-2 call also contains an entry for each child
occurrence. -/
theorem childEntry_calculateFinalLayout (n : MindMapNode) (lv : Nat)
    (yOff : ℚ) (p : List Nat) :
    ∀ e ∈ (calculateFinalLayout n lv yOff p).1, ∀ t cs,
      e.node = .mk t (some cs) → ∀ j < cs.length,
      ∃ e2 ∈ (calculateFinalLayout n lv yOff p).1, e2.path = e.path ++ [j] := by
  match n with
  | .mk t0 none =>
    intro e he t cs hnode j hj
    simp only [calculateFinalLayout, List.mem_singleton] at he
    subst he
    have hnode2 : MindMapNode.mk t0 none = .mk t (some cs) := hnode
    simp at hnode2
  | .mk t0 (some cs0) =>
    by_cases h : cs0.length = 0
    · intro e he t cs hnode j hj
      simp only [calculateFinalLayout, h, if_true, List.mem_singleton] at he
      subst he
      have hnode2 : MindMapNode.mk t0 (some cs0) = .mk t (some cs) := hnode
      injection hnode2 with ht hc
      injection hc with hc2
      rw [← hc2] at hj
      omega
    · intro e he t cs hnode j hj
      have hsplit : (calculateFinalLayout (.mk t0 (some cs0)) lv yOff p).1 =
          (layoutChildren cs0 (lv + 1) yOff p 0).1 ++
          [{ node := .mk t0 (some cs0), x := (lv : ℚ) * HORIZONTAL_SEPARATION,
             y := ((layoutChildren cs0 (lv + 1) yOff p 0).2.headD 0 +
                   (layoutChildren cs0 (lv + 1) yOff p 0).2.getLastD 0) / 2,
             level := lv, path := p }] := by
        simp only [calculateFinalLayout, h, if_false]
      rw [hsplit] at he ⊢
      rcases List.mem_append.mp he with hmem | hroot
      · obtain ⟨e2, he2, hp2⟩ :=
          (childEntry_layoutChildren cs0 (lv + 1) yOff p 0).1 e hmem t cs hnode j hj
        exact ⟨e2, List.mem_append_left _ he2, hp2⟩
      · have he2 := List.mem_singleton.mp hroot
        subst he2
        have hnode2 : MindMapNode.mk t0 (some cs0) = .mk t (some cs) := hnode
        injection hnode2 with ht hc
        injection hc with hc2
        rw [← hc2] at hj
        obtain ⟨e2, he2, hp2⟩ :=
          (childEntry_layoutChildren cs0 (lv + 1) yOff p 0).2 j (by omega) (by omega)
        exact ⟨e2, List.mem_append_left _ he2, hp2⟩
termination_by structural n

/-- Completeness for the pass-2 loop: child entries of inner nodes exist,
and the loop itself creates one entry for each child index it visits. -/
theorem childEntry_layoutChildren (l : List MindMapNode) (lv : Nat)
    (yOff : ℚ) (p : List Nat) (i : Nat) :
    (∀ e ∈ (layoutChildren l lv yOff p i).1, ∀ t cs,
       e.node = .mk t (some cs) → ∀ j < cs.length,
       ∃ e2 ∈ (layoutChildren l lv yOff p i).1, e2.path = e.path ++ [j]) ∧
    (∀ j, i ≤ j → j < i + l.length →
       ∃ e2 ∈ (layoutChildren l lv yOff p i).1, e2.path = p ++ [j]) := by
  match l with
  | [] =>
    constructor
    · intro e he; simp [layoutChildren] at he
    · intro j h1 h2; simp at h2; omega
  | c :: cs =>
    constructor
    · intro e he t0 cs0 hnode j hj
      simp only [layoutChildren] at he ⊢
      rcases List.mem_append.mp he with hmem | hmem
      · obtain ⟨e2, he2, hp2⟩ :=
          childEntry_calculateFinalLayout c lv yOff (p ++ [i]) e hmem t0 cs0 hnode j hj
        exact ⟨e2, List.mem_append_left _ he2, hp2⟩
      · obtain ⟨e2, he2, hp2⟩ :=
          (childEntry_layoutChildren cs lv (yOff + calculateInitialY c) p (i + 1)).1
            e hmem t0 cs0 hnode j hj
        exact ⟨e2, List.mem_append_right _ he2, hp2⟩
    · intro j h1 h2
      simp only [layoutChildren]
      rcases Nat.eq_or_lt_of_le h1 with heq | hlt
      · subst heq
        exact ⟨_, List.mem_append_left _
          (root_mem_calculateFinalLayout c lv yOff (p ++ [i])), rfl⟩
      · obtain ⟨e2, he2, hp2⟩ :=
          (childEntry_layoutChildren cs lv (yOff + calculateInitialY c) p (i + 1)).2
            j hlt (by simp at h2 ⊢; omega)
        exact ⟨e2, List.mem_append_right _ he2, hp2⟩
termination_by structural l
end

/-! ## Parent centering -/

mutual
/-- For every entry of a pass-2 call whose node has a nonempty child list,
the same call's entry list contains the first child's entry and the last
child's entry, and the parent's `y` is exactly the midpoint of those two
children's `y` values. -/
theorem centering_calculateFinalLayout (n : MindMapNode) (lv : Nat)
    (yOff : ℚ) (p : List Nat) :
    ∀ e ∈ (calculateFinalLayout n lv yOff p).1, ∀ t cs,
      e.node = .mk t (some cs) → cs ≠ [] →
      ∃ e1 ∈ (calculateFinalLayout n lv yOff p).1,
        ∃ ek ∈ (calculateFinalLayout n lv yOff p).1,
          e1.path = e.path ++ [0] ∧ ek.path = e.path ++ [cs.length - 1] ∧
          e.y = (e1.y + ek.y) / 2 := by
  match n with
  | .mk t0 none =>
    intro e he t cs hnode hcs
    simp only [calculateFinalLayout, List.mem_singleton] at he
    subst he
    have hnode2 : MindMapNode.mk t0 none = .mk t (some cs) := hnode
    simp at hnode2
  | .mk t0 (some cs0) =>
    by_cases h : cs0.length = 0
    · intro e he t cs hnode hcs
      simp only [calculateFinalLayout, h, if_true, List.mem_singleton] at he
      subst he
      have hnode2 : MindMapNode.mk t0 (some cs0) = .mk t (some cs) := hnode
      injection hnode2 with ht hc
      injection hc with hc2
      rw [← hc2] at hcs
      exact absurd (List.length_eq_zero.mp h) hcs
    · intro e he t cs hnode hcs
      have hsplit : (calculateFinalLayout (.mk t0 (some cs0)) lv yOff p).1 =
          (layoutChildren cs0 (lv + 1) yOff p 0).1 ++
          [{ node := .mk t0 (some cs0), x := (lv : ℚ) * HORIZONTAL_SEPARATION,
             y := ((layoutChildren cs0 (lv + 1) yOff p 0).2.headD 0 +
                   (layoutChildren cs0 (lv + 1) yOff p 0).2.getLastD 0) / 2,
             level := lv, path := p }] := by
        simp only [calculateFinalLayout, h, if_false]
      rw [hsplit] at he ⊢
      rcases List.mem_append.mp he with hmem | hroot
      · obtain ⟨e1, he1, ek, hek, h1, h2, h3⟩ :=
          centering_layoutChildren cs0 (lv + 1) yOff p 0 e hmem t cs hnode hcs
        exact ⟨e1, List.mem_append_left _ he1, ek, List.mem_append_left _ hek,
          h1, h2, h3⟩
      · have he2 := List.mem_singleton.mp hroot
        subst he2
        have hnode2 : MindMapNode.mk t0 (some cs0) = .mk t (some cs) := hnode
        injection hnode2 with ht hc
        injection hc with hc2
        subst hc2
        obtain ⟨m, hm⟩ : ∃ m, cs0.length = m + 1 :=
          ⟨cs0.length - 1, by omega⟩
        have hj0 : 0 < cs0.length := by omega
        have hjm : m < cs0.length := by omega
        refine ⟨_, List.mem_append_left _
            (childRoot_mem_layoutChildren cs0 (lv + 1) yOff p 0 hj0), ?_⟩
        refine ⟨_, List.mem_append_left _
            (childRoot_mem_layoutChildren cs0 (lv + 1) yOff p 0 hjm), ?_⟩
        refine ⟨by simp, by simp [hm], ?_⟩
        have hcenters := centers_layoutChildren cs0 (lv + 1) p yOff 0
        simp only []
        rw [hcenters, hm, headD_map_range, getLastD_map_range]
termination_by structural n

/-- The loop version of the centering property. -/
theorem centering_layoutChildren (l : List MindMapNode) (lv : Nat)
    (yOff : ℚ) (p : List Nat) (i : Nat) :
    ∀ e ∈ (layoutChildren l lv yOff p i).1, ∀ t cs,
      e.node = .mk t (some cs) → cs ≠ [] →
      ∃ e1 ∈ (layoutChildren l lv yOff p i).1,
        ∃ ek ∈ (layoutChildren l lv yOff p i).1,
          e1.path = e.path ++ [0] ∧ ek.path = e.path ++ [cs.length - 1] ∧
          e.y = (e1.y + ek.y) / 2 := by
  match l with
  | [] => intro e he; simp [layoutChildren] at he
  | c :: cs1 =>
    intro e he t cs hnode hcs
    simp only [layoutChildren] at he ⊢
    rcases List.mem_append.mp he with hmem | hmem
    · obtain ⟨e1, he1, ek, hek, h1, h2, h3⟩ :=
        centering_calculateFinalLayout c lv yOff (p ++ [i]) e hmem t cs hnode hcs
      exact ⟨e1, List.mem_append_left _ he1, ek, List.mem_append_left _ hek,
        h1, h2, h3⟩
    · obtain ⟨e1, he1, ek, hek, h1, h2, h3⟩ :=
        (centering_layoutChildren cs1 lv (yOff + calculateInitialY c) p (i + 1))
          e hmem t cs hnode hcs
      exact ⟨e1, List.mem_append_right _ he1, ek, List.mem_append_right _ hek,
        h1, h2, h3⟩
termination_by structural l
end

/-! ## Projections of the layout result -/

theorem computeLayout_nodes (data : MindMapNode) :
    (computeLayout data).nodes = (calculateFinalLayout data 0 0 []).1 := rfl

theorem computeLayout_links (data : MindMapNode) :
    (computeLayout data).links = createLinks (calculateFinalLayout data 0 0 []).1 := rfl

theorem computeLayout_height (data : MindMapNode) :
    (computeLayout data).height = calculateInitialY data + 40 := rfl

/-! ## Claims -/

/-- C1 (counterexample): the node list is NOT in pre-order.  For the
two-node tree `r → c`, pass 2 pushes the child before the root, so the
node list is `[c, r]` while the pre-order traversal is `[r, c]`. -/
theorem claim_C1_counterexample :
    ¬ ((computeLayout (.mk "r" (some [.mk "c" none]))).nodes.map LayoutNode.node
        = preorder (.mk "r" (some [.mk "c" none]))) := by
  intro h
  have h2 := congrArg (List.map MindMapNode.title) h
  rw [computeLayout_nodes] at h2
  simp only [calculateFinalLayout, layoutChildren, calculateInitialY,
    preorder, preorderList, List.map_map, List.map_append, List.map_cons,
    List.map_nil, Function.comp, MindMapNode.title, List.length_cons,
    List.length_nil] at h2
  simp [MindMapNode.title] at h2

/-- C1 (amended): the node list of the layout result is ordered as a
post-order traversal of the input tree — each child's subtree first, in
the children's given order, then the root last. -/
theorem claim_C1_postorder (data : MindMapNode) :
    (computeLayout data).nodes.map LayoutNode.node = postorder data := by
  rw [computeLayout_nodes]
  exact map_node_calculateFinalLayout data 0 0 []

/-- C3: for every laid-out node with a nonempty child list, the layout
contains entries for the first and last child occurrences, and the
parent's `y` is the midpoint of exactly those two children's `y` values;
for a single child the parent's `y` equals the child's `y`. -/
theorem claim_C3_parent_centering (data : MindMapNode) :
    ∀ e ∈ (computeLayout data).nodes, ∀ t cs,
      e.node = .mk t (some cs) → cs ≠ [] →
      ∃ e1 ∈ (computeLayout data).nodes, ∃ ek ∈ (computeLayout data).nodes,
        e1.path = e.path ++ [0] ∧ ek.path = e.path ++ [cs.length - 1] ∧
        e.y = (e1.y + ek.y) / 2 ∧ (cs.length = 1 → e.y = e1.y) := by
  intro e he t cs hnode hcs
  rw [computeLayout_nodes] at he ⊢
  obtain ⟨e1, he1, ek, hek, h1, h2, h3⟩ :=
    centering_calculateFinalLayout data 0 0 [] e he t cs hnode hcs
  refine ⟨e1, he1, ek, hek, h1, h2, h3, ?_⟩
  intro hone
  have hpeq : e1.path = ek.path := by rw [h1, h2, hone]
  have := path_inj data 0 0 [] he1 hek hpeq
  subst this
  rw [h3]
  ring

/-- C4: during coordinate assignment the children are laid out, in
declared order, in contiguous vertical bands: the loop hands child `j` the
offset `bandStart cs yOffset j`, consecutive band starts differ by exactly
the previous child's subtree height, and the half-open bands of two
distinct children are disjoint. -/
theorem claim_C4_contiguous_bands (cs : List MindMapNode) (yOff : ℚ) :
    (∀ j, j < cs.length →
       bandStart cs yOff (j + 1) =
         bandStart cs yOff j + calculateInitialY (cs.getD j dnode)) ∧
    (∀ (lv : Nat) (p : List Nat),
       (layoutChildren cs lv yOff p 0).1 =
         (List.range cs.length).flatMap (fun j =>
           (calculateFinalLayout (cs.getD j dnode) lv (bandStart cs yOff j)
             (p ++ [0 + j])).1)) ∧
    (∀ j k, j < cs.length → k < cs.length → j ≠ k →
       Disjoint
         (Set.Ico (bandStart cs yOff j)
           (bandStart cs yOff j + calculateInitialY (cs.getD j dnode)))
         (Set.Ico (bandStart cs yOff k)
           (bandStart cs yOff k + calculateInitialY (cs.getD k dnode)))) := by
  refine ⟨fun j hj => bandStart_succ cs yOff hj,
    fun lv p => entries_layoutChildren cs lv p yOff 0, ?_⟩
  have key : ∀ j k, j < k → k < cs.length →
      Disjoint
        (Set.Ico (bandStart cs yOff j)
          (bandStart cs yOff j + calculateInitialY (cs.getD j dnode)))
        (Set.Ico (bandStart cs yOff k)
          (bandStart cs yOff k + calculateInitialY (cs.getD k dnode))) := by
    intro j k hjk hk
    have hband : bandStart cs yOff j + calculateInitialY (cs.getD j dnode) ≤
        bandStart cs yOff k := by
      rw [← bandStart_succ cs yOff (by omega)]
      exact bandStart_mono cs yOff (by omega)
    refine Set.Ico_disjoint_Ico.mpr ?_
    exact le_trans (min_le_left _ _) (le_trans hband (le_max_right _ _))
  intro j k hj hk hjk
  rcases Nat.lt_or_ge j k with hlt | hge
  · exact key j k hlt hk
  · exact (key k j (by omega) hj).symm

/-- C5: distinct laid-out nodes never overlap: for any two distinct
entries of the node list, the closed `NODE_WIDTH × NODE_HEIGHT` boxes
drawn at `(x, y - NODE_HEIGHT/2)` are disjoint. -/
theorem claim_C5_no_overlap (data : MindMapNode) :
    ((computeLayout data).nodes).Pairwise (fun a b => ¬ boxesOverlap a b) := by
  rw [computeLayout_nodes]
  have hshape := entryShape_calculateFinalLayout data 0 0 []
  refine (sep_calculateFinalLayout data 0 0 []).imp_of_mem ?_
  intro a b ha hb hab
  obtain ⟨-, -, -, hxa, -, -⟩ := hshape a ha
  obtain ⟨-, -, -, hxb, -, -⟩ := hshape b hb
  intro hover
  obtain ⟨ho1, ho2, ho3, ho4⟩ := hover
  rcases hab.2 with hlvl | hy
  · rcases Nat.lt_or_ge a.level b.level with hlt | hge
    · have hc : (a.level : ℚ) + 1 ≤ (b.level : ℚ) := by exact_mod_cast hlt
      rw [hxa] at ho2
      rw [hxb] at ho2
      unfold HORIZONTAL_SEPARATION at ho2
      unfold NODE_WIDTH at ho2
      nlinarith
    · have hlt2 : b.level < a.level := by omega
      have hc : (b.level : ℚ) + 1 ≤ (a.level : ℚ) := by exact_mod_cast hlt2
      rw [hxa] at ho1
      rw [hxb] at ho1
      unfold HORIZONTAL_SEPARATION at ho1
      unfold NODE_WIDTH at ho1
      nlinarith
  · unfold NODE_HEIGHT at ho3 ho4
    have habs : |b.y - a.y| ≤ 80 := abs_le.mpr ⟨by linarith, by linarith⟩
    linarith

/-- C6: pass 1 computes `subtreeHeight` as `NODE_HEIGHT +
VERTICAL_SEPARATION` for a node whose `children` field is absent and,
through the same branch, for a node whose child list is empty; for a node
with a nonempty child list it is the sum of the children's subtree
heights, with no extra slot for the node itself.  Absent and empty child
lists also produce the same pass-2 `y`. -/
theorem claim_C6_pass1_formulas :
    (∀ t, calculateInitialY (.mk t none) = NODE_HEIGHT + VERTICAL_SEPARATION) ∧
    (∀ t, calculateInitialY (.mk t (some [])) = NODE_HEIGHT + VERTICAL_SEPARATION) ∧
    (∀ t cs, cs ≠ [] → calculateInitialY (.mk t (some cs)) = sumInitialY cs) ∧
    (∀ t lv yOff p, (calculateFinalLayout (.mk t none) lv yOff p).2 =
        (calculateFinalLayout (.mk t (some [])) lv yOff p).2) := by
  refine ⟨calculateInitialY_none, calculateInitialY_empty,
    calculateInitialY_internal, ?_⟩
  intro t lv yOff p
  simp [calculateFinalLayout, calculateInitialY]

/-- C7: on a `null`/`undefined` root the effect body throws before any
layout computation (the first property access on the null reference
fails), so the operation yields an error and never a (partial) layout
result. -/
theorem claim_C7_null_root_fails :
    (computeLayoutFromNullable none =
      .error "TypeError: Cannot read properties of null (reading 'children')") ∧
    (∀ r, computeLayoutFromNullable none ≠ .ok r) := by
  constructor
  · rfl
  · intro r h
    cases h

/-- C8: every entry's `x` is its depth level times
`HORIZONTAL_SEPARATION`, the level being the entry's depth in the tree
(root at level 0); hence any two entries at the same depth share their
`x`. -/
theorem claim_C8_x_columns (data : MindMapNode) :
    (∀ e ∈ (computeLayout data).nodes,
       e.level = e.path.length ∧ e.x = (e.level : ℚ) * HORIZONTAL_SEPARATION) ∧
    (∀ e1 ∈ (computeLayout data).nodes, ∀ e2 ∈ (computeLayout data).nodes,
       e1.level = e2.level → e1.x = e2.x) := by
  have hshape := entryShape_calculateFinalLayout data 0 0 []
  rw [computeLayout_nodes]
  constructor
  · intro e he
    obtain ⟨-, hlvl, -, hx, -, -⟩ := hshape e he
    simp only [List.length_nil] at hlvl
    exact ⟨by omega, hx⟩
  · intro e1 he1 e2 he2 hlvl
    obtain ⟨-, -, -, hx1, -, -⟩ := hshape e1 he1
    obtain ⟨-, -, -, hx2, -, -⟩ := hshape e2 he2
    rw [hx1, hx2, hlvl]

/-- C10: the pass-1 `subtreeHeight` of every node equals the number of
leaves in its subtree times `NODE_HEIGHT + VERTICAL_SEPARATION`, and the
canvas height is the root's leaf count times that slot size, plus 40. -/
theorem claim_C10_height_leaves :
    (∀ n, calculateInitialY n =
       (leafCount n : ℚ) * (NODE_HEIGHT + VERTICAL_SEPARATION)) ∧
    (∀ data, (computeLayout data).height =
       (leafCount data : ℚ) * (NODE_HEIGHT + VERTICAL_SEPARATION) + 40) := by
  refine ⟨calculateInitialY_eq_leafCount, ?_⟩
  intro data
  rw [computeLayout_height, calculateInitialY_eq_leafCount]

/-! ## Counting links -/

theorem length_filterMap_all_isSome {α β : Type} (l : List α) (f : α → Option β)
    (h : ∀ a ∈ l, (f a).isSome) : (l.filterMap f).length = l.length := by
  induction l with
  | nil => simp
  | cons a as ih =>
    obtain ⟨b, hb⟩ := Option.isSome_iff_exists.mp (h a (by simp))
    rw [List.filterMap_cons, hb]
    simp only [List.length_cons]
    rw [ih (fun a ha => h a (by simp [ha]))]

theorem filterMap_eq_map_of_some {α β : Type} (l : List α) (f : α → Option β)
    (g : α → β) (h : ∀ a ∈ l, f a = some (g a)) : l.filterMap f = l.map g := by
  induction l with
  | nil => simp
  | cons a as ih =>
    rw [List.filterMap_cons, h a (by simp), List.map_cons,
      ih (fun a ha => h a (by simp [ha]))]

theorem count_flatMap {α β : Type} [BEq β] (l : List α) (f : α → List β)
    (b : β) : (l.flatMap f).count b = (l.map (fun a => (f a).count b)).sum := by
  induction l with
  | nil => simp
  | cons a as ih => rw [List.flatMap_cons, List.count_append, List.map_cons,
      List.sum_cons, ih]

theorem count_map_eq_one {α β : Type} [DecidableEq β] (l : List α)
    (f : α → β) (b : β) (a0 : α) (h0 : a0 ∈ l) (hf : f a0 = b)
    (huniq : ∀ a ∈ l, f a = b → a = a0) (hnd : l.Nodup) :
    (l.map f).count b = 1 := by
  induction l with
  | nil => simp at h0
  | cons a as ih =>
    rw [List.map_cons, List.count_cons]
    rcases List.mem_cons.mp h0 with rfl | hmem
    · have hzero : (as.map f).count b = 0 := by
        rw [List.count_eq_zero]
        intro hb
        obtain ⟨a2, ha2, hfa2⟩ := List.mem_map.mp hb
        have : a2 = a0 := huniq a2 (by simp [ha2]) hfa2
        subst this
        exact (List.nodup_cons.mp hnd).1 ha2
      rw [hzero, hf]
      simp
    · have hne : ¬ (f a == b) := by
        intro hbeq
        have : a = a0 := huniq a (by simp) (by simpa using hbeq)
        subst this
        exact (List.nodup_cons.mp hnd).1 hmem
      rw [ih hmem (fun x hx hfx => huniq x (by simp [hx]) hfx)
        (List.nodup_cons.mp hnd).2]
      simp [hne]

mutual
/-- The child counts of a tree, summed in post-order, are one less than
the node count. -/
theorem sum_childCount_postorder (n : MindMapNode) :
    ((postorder n).map childCount).sum + 1 = countNodes n := by
  match n with
  | .mk t none => simp [postorder, childCount, countNodes, MindMapNode.children]
  | .mk t (some cs) =>
    rw [postorder, countNodes, List.map_append, List.sum_append]
    have h := sum_childCount_postorderList cs
    simp only [List.map_cons, List.map_nil, List.sum_cons, List.sum_nil]
    simp only [childCount, MindMapNode.children]
    omega
termination_by structural n

/-- The child counts of a forest, summed in post-order, are the total node
count minus the number of roots. -/
theorem sum_childCount_postorderList (l : List MindMapNode) :
    ((postorderList l).map childCount).sum + l.length = countNodesList l := by
  match l with
  | [] => simp [postorderList, countNodesList]
  | c :: cs =>
    rw [postorderList, countNodesList, List.map_append, List.sum_append]
    have h1 := sum_childCount_postorder c
    have h2 := sum_childCount_postorderList cs
    simp only [List.length_cons]
    omega
termination_by structural l
end

/-- A default layout entry (used only as the `Option.getD` fallback when
naming the entry that a successful `find?` returned). -/
def defaultEntry : LayoutNode :=
  { node := dnode, x := 0, y := 0, level := 0, path := [] }

/-- The entry that `nodes.find(n => n.node === childNode)` resolves for
the `j`-th child of source `s`, in the path model of object identity. -/
def resolvedTarget (nodes : List LayoutNode) (s : LayoutNode) (j : Nat) :
    Option LayoutNode :=
  nodes.find? (fun n => n.path = s.path ++ [j])

/-- Over the full layout, every `find?` in `linkRow` succeeds, so the row
of links of a source entry with a child list is exactly one link per child
index, targeting the resolved entry. -/
theorem linkRow_eq_map (data : MindMapNode) {s : LayoutNode}
    (hs : s ∈ (calculateFinalLayout data 0 0 []).1) {t : String}
    {cs : List MindMapNode} (hnode : s.node = .mk t (some cs)) :
    linkRow (calculateFinalLayout data 0 0 []).1 s =
      (List.range cs.length).map (fun j =>
        { source := { x := s.x + NODE_WIDTH, y := s.y },
          target := { x := ((resolvedTarget (calculateFinalLayout data 0 0 []).1
                              s j).getD defaultEntry).x,
                      y := ((resolvedTarget (calculateFinalLayout data 0 0 []).1
                              s j).getD defaultEntry).y } }) := by
  have hrow : linkRow (calculateFinalLayout data 0 0 []).1 s =
      (List.range cs.length).filterMap (fun j =>
        match (calculateFinalLayout data 0 0 []).1.find?
            (fun n => n.path = s.path ++ [j]) with
        | some t => some { source := { x := s.x + NODE_WIDTH, y := s.y },
                           target := { x := t.x, y := t.y } }
        | none => none) := by
    simp [linkRow, hnode, MindMapNode.children]
  rw [hrow]
  apply filterMap_eq_map_of_some
  intro j hj
  obtain ⟨e2, he2, hp2⟩ := childEntry_calculateFinalLayout data 0 0 []
    s hs t cs hnode j (List.mem_range.mp hj)
  have hfind := find?_path_eq data 0 0 [] he2 hp2
  rw [hfind]
  simp [resolvedTarget, hfind]

/-- Each source entry of the full layout contributes exactly one link per
child of its node. -/
theorem length_linkRow (data : MindMapNode) {s : LayoutNode}
    (hs : s ∈ (calculateFinalLayout data 0 0 []).1) :
    (linkRow (calculateFinalLayout data 0 0 []).1 s).length = childCount s.node := by
  rcases hnode : s.node with ⟨t, oc⟩
  cases oc with
  | none => simp [linkRow, hnode, childCount, MindMapNode.children]
  | some cs =>
    rw [linkRow_eq_map data hs hnode]
    simp [childCount, hnode, MindMapNode.children]

/-- C2: the layout contains exactly one node entry per tree node and
exactly one link per parent-child pair (node count minus one). -/
theorem claim_C2_counts (data : MindMapNode) :
    (computeLayout data).nodes.length = countNodes data ∧
    (computeLayout data).links.length = countNodes data - 1 := by
  refine ⟨length_nodes_eq_countNodes data, ?_⟩
  rw [computeLayout_links, createLinks, List.length_flatMap]
  have hmap : ((calculateFinalLayout data 0 0 []).1.map
      (List.length ∘ linkRow (calculateFinalLayout data 0 0 []).1)) =
      ((calculateFinalLayout data 0 0 []).1.map (fun s => childCount s.node)) :=
    List.map_congr_left (fun s hs => length_linkRow data hs)
  rw [hmap]
  have hcomp : ((calculateFinalLayout data 0 0 []).1.map
      (fun s => childCount s.node)) = (postorder data).map childCount := by
    rw [show ((calculateFinalLayout data 0 0 []).1.map
        (fun s => childCount s.node)) =
        (((calculateFinalLayout data 0 0 []).1.map LayoutNode.node).map
          childCount) by rw [List.map_map]; rfl]
    rw [map_node_calculateFinalLayout data 0 0 []]
  rw [hcomp]
  have := sum_childCount_postorder data
  omega

/-! ## Injectivity of positions within one layout -/

theorem sep_symm : Symmetric sep := by
  intro a b hab
  refine ⟨fun h => hab.1 h.symm, ?_⟩
  rcases hab.2 with h | h
  · exact Or.inl (fun he => h he.symm)
  · exact Or.inr (by rwa [abs_sub_comm])

/-- Within one layout, entries are determined by their position: equal `x`
and equal `y` forces equal entries. -/
theorem xy_inj (data : MindMapNode) {a b : LayoutNode}
    (ha : a ∈ (calculateFinalLayout data 0 0 []).1)
    (hb : b ∈ (calculateFinalLayout data 0 0 []).1)
    (hx : a.x = b.x) (hy : a.y = b.y) : a = b := by
  by_contra hne
  have hsep := (sep_calculateFinalLayout data 0 0 []).forall sep_symm ha hb hne
  obtain ⟨-, hxa1, -, hxa, -, -⟩ := entryShape_calculateFinalLayout data 0 0 [] a ha
  obtain ⟨-, hxb1, -, hxb, -, -⟩ := entryShape_calculateFinalLayout data 0 0 [] b hb
  rcases hsep.2 with hlvl | habs
  · apply hlvl
    rw [hxa, hxb] at hx
    have h220 : (HORIZONTAL_SEPARATION : ℚ) ≠ 0 := by
      unfold HORIZONTAL_SEPARATION; norm_num
    have := mul_right_cancel₀ h220 hx
    exact_mod_cast this
  · rw [hy] at habs
    simp at habs
    linarith

/-- The full layout has no duplicate entries. -/
theorem nodes_nodup (data : MindMapNode) :
    ((calculateFinalLayout data 0 0 []).1).Nodup :=
  (pairwise_path_ne data 0 0 []).imp (fun h heq => h (by rw [heq]))

/-- C9: for every laid-out parent occurrence and each of its children, the
link list contains exactly one link from the parent's right edge midpoint
`(P.x + NODE_WIDTH, P.y)` to the child's left edge midpoint `(C.x, C.y)`. -/
theorem claim_C9_edges (data : MindMapNode) :
    ∀ s ∈ (computeLayout data).nodes, ∀ t cs, s.node = .mk t (some cs) →
      ∀ j < cs.length,
      ∃ e ∈ (computeLayout data).nodes, e.path = s.path ++ [j] ∧
        ((computeLayout data).links.count
          { source := { x := s.x + NODE_WIDTH, y := s.y },
            target := { x := e.x, y := e.y } }) = 1 := by
  intro s hs t cs hnode j hj
  rw [computeLayout_nodes] at hs ⊢
  rw [computeLayout_links]
  obtain ⟨e, he, hpe⟩ :=
    childEntry_calculateFinalLayout data 0 0 [] s hs t cs hnode j hj
  refine ⟨e, he, hpe, ?_⟩
  rw [createLinks, count_flatMap]
  -- the row of any other source entry contains no such link
  have hzero : ∀ a ∈ (calculateFinalLayout data 0 0 []).1, a ≠ s →
      ((linkRow (calculateFinalLayout data 0 0 []).1 a).count
        { source := { x := s.x + NODE_WIDTH, y := s.y },
          target := { x := e.x, y := e.y } }) = 0 := by
    intro a ha hne
    rw [List.count_eq_zero]
    intro hLmem
    rcases hnodeA : a.node with ⟨t2, oc2⟩
    cases oc2 with
    | none => simp [linkRow, hnodeA, MindMapNode.children] at hLmem
    | some cs2 =>
      have hrow : linkRow (calculateFinalLayout data 0 0 []).1 a =
          (List.range cs2.length).filterMap (fun j2 =>
            match (calculateFinalLayout data 0 0 []).1.find?
                (fun n => n.path = a.path ++ [j2]) with
            | some tg => some { source := { x := a.x + NODE_WIDTH, y := a.y },
                                target := { x := tg.x, y := tg.y } }
            | none => none) := by
        simp [linkRow, hnodeA, MindMapNode.children]
      rw [hrow] at hLmem
      obtain ⟨j2, hj2, hfj2⟩ := List.mem_filterMap.mp hLmem
      rcases hfind : (calculateFinalLayout data 0 0 []).1.find?
          (fun n => n.path = a.path ++ [j2]) with - | tg
      · rw [hfind] at hfj2
        cases hfj2
      · rw [hfind] at hfj2
        simp only [Option.some.injEq, LayoutLink.mk.injEq,
          LinkPoint.mk.injEq] at hfj2
        obtain ⟨⟨hx1, hy1⟩, -⟩ := hfj2
        exact hne (xy_inj data ha hs (by linarith) hy1)
  -- the row of `s` itself contains the link exactly once
  have hone : ((linkRow (calculateFinalLayout data 0 0 []).1 s).count
      { source := { x := s.x + NODE_WIDTH, y := s.y },
        target := { x := e.x, y := e.y } }) = 1 := by
    rw [linkRow_eq_map data hs hnode]
    refine count_map_eq_one (List.range cs.length) _ _ j
      (List.mem_range.mpr hj) ?_ ?_ (List.nodup_range _)
    · have hfind := find?_path_eq data 0 0 [] he hpe
      simp [resolvedTarget, hfind]
    · intro k hk hfk
      by_contra hne
      obtain ⟨e2, he2, hp2⟩ := childEntry_calculateFinalLayout data 0 0 []
        s hs t cs hnode k (List.mem_range.mp hk)
      have hfind2 := find?_path_eq data 0 0 [] he2 hp2
      simp only [resolvedTarget, hfind2, Option.getD_some,
        LayoutLink.mk.injEq, LinkPoint.mk.injEq] at hfk
      obtain ⟨-, hx2, hy2⟩ := hfk
      have : e2 = e := xy_inj data he2 he hx2 hy2
      subst this
      rw [hp2] at hpe
      have := List.append_cancel_left hpe
      simp at this
      exact hne this
  -- split the sum at the unique occurrence of `s`
  obtain ⟨N1, N2, hsplit⟩ := List.append_of_mem hs
  have hnd : (N1 ++ s :: N2).Nodup := by rw [← hsplit]; exact nodes_nodup data
  obtain ⟨hnd1, hnd2, hdisj⟩ := List.nodup_append.mp hnd
  have hs1 : s ∉ N1 := fun hmem => hdisj hmem (by simp)
  have hs2 : s ∉ N2 := (List.nodup_cons.mp hnd2).1
  have hcongr := congrArg (fun (l : List LayoutNode) =>
      (l.map (fun a => ((linkRow (calculateFinalLayout data 0 0 []).1 a).count
        { source := { x := s.x + NODE_WIDTH, y := s.y },
          target := { x := e.x, y := e.y } }))).sum) hsplit
  simp only [] at hcongr
  rw [hcongr, List.map_append, List.sum_append, List.map_cons, List.sum_cons]
  have hz1 : ((N1.map (fun a => ((linkRow (calculateFinalLayout data 0 0 []).1 a).count
      { source := { x := s.x + NODE_WIDTH, y := s.y },
        target := { x := e.x, y := e.y } }))).sum) = 0 := by
    apply List.sum_eq_zero
    intro x hx
    obtain ⟨a, ha, rfl⟩ := List.mem_map.mp hx
    exact hzero a (by rw [hsplit]; exact List.mem_append_left _ ha)
      (fun heq => hs1 (heq ▸ ha))
  have hz2 : ((N2.map (fun a => ((linkRow (calculateFinalLayout data 0 0 []).1 a).count
      { source := { x := s.x + NODE_WIDTH, y := s.y },
        target := { x := e.x, y := e.y } }))).sum) = 0 := by
    apply List.sum_eq_zero
    intro x hx
    obtain ⟨a, ha, rfl⟩ := List.mem_map.mp hx
    exact hzero a (by rw [hsplit]; exact List.mem_append_right _ (by simp [ha]))
      (fun heq => hs2 (heq ▸ ha))
  rw [hz1, hz2, hone]
  omega

/-! ## Concrete witnesses -/

/-- A small concrete tree: a root with three leaf children. -/
def sampleTree : MindMapNode :=
  .mk "r" (some [.mk "A" none, .mk "B" none, .mk "C" none])

/-- Witness for C3 at a concrete input: the root of `sampleTree` has three
children; its `y` is the midpoint of the first and third child's `y`. -/
theorem claim_C3_witness :
    ∃ e1 ∈ (computeLayout sampleTree).nodes,
      ∃ ek ∈ (computeLayout sampleTree).nodes,
        e1.path = [0] ∧ ek.path = [2] ∧
        (calculateFinalLayout sampleTree 0 0 []).2 = (e1.y + ek.y) / 2 := by
  have hmem := root_mem_calculateFinalLayout sampleTree 0 0 []
  rw [← computeLayout_nodes] at hmem
  obtain ⟨e1, he1, ek, hek, h1, h2, h3, -⟩ :=
    claim_C3_parent_centering sampleTree _ hmem "r"
      [.mk "A" none, .mk "B" none, .mk "C" none] rfl (by simp)
  exact ⟨e1, he1, ek, hek, by simpa using h1, by simpa using h2,
    by simpa using h3⟩

/-- Witness for C4 at a concrete input: for two leaf children starting at
offset 0, the second band starts where the first ends, and the two bands
are disjoint. -/
theorem claim_C4_witness :
    bandStart [.mk "A" none, .mk "B" none] 0 1 =
      bandStart [.mk "A" none, .mk "B" none] 0 0 +
        calculateInitialY ([.mk "A" none, .mk "B" none].getD 0 dnode) ∧
    Disjoint
      (Set.Ico (bandStart [.mk "A" none, .mk "B" none] 0 0)
        (bandStart [.mk "A" none, .mk "B" none] 0 0 +
          calculateInitialY ([.mk "A" none, .mk "B" none].getD 0 dnode)))
      (Set.Ico (bandStart [.mk "A" none, .mk "B" none] 0 1)
        (bandStart [.mk "A" none, .mk "B" none] 0 1 +
          calculateInitialY ([.mk "A" none, .mk "B" none].getD 1 dnode))) := by
  have h := claim_C4_contiguous_bands [.mk "A" none, .mk "B" none] 0
  exact ⟨h.1 0 (by simp), h.2.2 0 1 (by simp) (by simp) (by simp)⟩

/-- Witness for C6 at a concrete input: a root with the single child `A`
takes the internal-node branch, summing the child heights. -/
theorem claim_C6_witness :
    ([MindMapNode.mk "A" none] ≠ ([] : List MindMapNode)) ∧
    calculateInitialY (.mk "r" (some [.mk "A" none])) =
      sumInitialY [.mk "A" none] :=
  ⟨by simp, claim_C6_pass1_formulas.2.2.1 "r" [.mk "A" none] (by simp)⟩

/-- Witness for C8 at a concrete input: the single entry of the
one-node layout has its level equal to its depth and its `x` equal to
level times the horizontal separation. -/
theorem claim_C8_witness :
    ∃ e ∈ (computeLayout (.mk "Root" none)).nodes,
      e.level = e.path.length ∧
      e.x = (e.level : ℚ) * HORIZONTAL_SEPARATION := by
  have hmem := root_mem_calculateFinalLayout (.mk "Root" none) 0 0 []
  rw [← computeLayout_nodes] at hmem
  exact ⟨_, hmem, (claim_C8_x_columns (.mk "Root" none)).1 _ hmem⟩

/-- Witness for C9 at a concrete input: the layout of `sampleTree`
contains exactly one link from the root's right edge midpoint to its
first child's left edge midpoint. -/
theorem claim_C9_witness :
    ∃ e ∈ (computeLayout sampleTree).nodes, e.path = [0] ∧
      ((computeLayout sampleTree).links.count
        { source := { x := (0 : ℚ) * HORIZONTAL_SEPARATION + NODE_WIDTH,
                      y := (calculateFinalLayout sampleTree 0 0 []).2 },
          target := { x := e.x, y := e.y } }) = 1 := by
  have hmem := root_mem_calculateFinalLayout sampleTree 0 0 []
  rw [← computeLayout_nodes] at hmem
  obtain ⟨e, he, hp, hc⟩ :=
    claim_C9_edges sampleTree _ hmem "r"
      [.mk "A" none, .mk "B" none, .mk "C" none] rfl 0 (by simp)
  refine ⟨e, he, by simpa using hp, ?_⟩
  convert hc using 3
